import Mathlib

/-!
Verification of the HSPARC core against its natural-language specification.

The definitions below are shallow embeddings of the Python sources:

* `hsparc/utils/study_encryption.py` — per-study file encryption
  (`derive_key_from_pin`, `encrypt_file`, `decrypt_file`).  The third-party
  Fernet AEAD and PBKDF2 key derivation are modelled symbolically: a derived
  key is the pair of study id and PIN, a Fernet token is a constructor
  embedding the key and the sealed payload, and decryption succeeds exactly
  when the keys agree.  The filesystem is an association list from paths to
  file contents.
* `v1.0.7/gamepad.py` — the device reader's calibration normalisation and
  allowed-input filtering.
* `hsparc/ui/recorder.py` and `v1.0.7/observer.py` — the INIT event written
  at stream creation.
* `hsparc/analysis/comprehensive_analyzer.py` — trace alignment and the
  pairwise helpers, with numpy float arrays modelled as lists of rationals
  or reals (reals where a square root occurs).
* `hsparc/utils/timeseries_converter.py` — event-to-regular-series
  conversion.

The file is organised as definitions first, then theorems.
-/

namespace HSparc

/-! ## String helpers mirroring the path arithmetic in decrypt_file -/

/-- Python semantics of the call removing the substring ".enc"
(single left-to-right pass over non-overlapping occurrences), as performed by
the line computing original_path in decrypt_file
(src/build/hsparc/utils/study_encryption.py line 66). -/
def stripEnc : List Char → List Char
  | '.' :: 'e' :: 'n' :: 'c' :: rest => stripEnc rest
  | c :: rest => c :: stripEnc rest
  | [] => []

/-- Model of os.path.basename: the characters after the last slash. -/
def basename : List Char → List Char
  | [] => []
  | c :: rest =>
    if c = '/' then basename rest
    else if '/' ∈ rest then basename rest
    else c :: rest

/-! ## Symbolic model of the study encryption module -/

/-- A symmetric key.  PBKDF2-HMAC-SHA256 with the study id as salt is a
third-party primitive; it is modelled symbolically by the pair of its two
inputs, which is deterministic per pair and collision-free, matching the
deterministic key derivation of derive_key_from_pin
(src/build/hsparc/utils/study_encryption.py lines 11-24). -/
abbrev StudyKey := String × String

/-- Key derivation from study id and PIN, modelling derive_key_from_pin. -/
def derive_key_from_pin (study_id pin : String) : StudyKey := (study_id, pin)

/-- File contents: either raw bytes or a Fernet token sealing a payload under
a key.  The token constructor is the symbolic model of the Fernet AEAD. -/
inductive Blob where
  | plain : List Nat → Blob
  | token : StudyKey → Blob → Blob
deriving DecidableEq

/-- Symbolic Fernet encryption: sealing a payload under a key. -/
def fernetEncrypt (key : StudyKey) (data : Blob) : Blob := Blob.token key data

/-- Symbolic Fernet decryption: authenticated, so it succeeds exactly when
the blob is a token sealed under the same key; on a wrong key or a blob that
is not a well-formed token it fails (the library raises, caught in
decrypt_file and re-raised as the bad-PIN-or-corrupted error). -/
def fernetDecrypt (key : StudyKey) (b : Blob) : Option Blob :=
  match b with
  | .token k d => if k = key then some d else none
  | .plain _ => none

/-- An on-disk filesystem: an association list from paths to contents. -/
abbrev FS := List (String × Blob)

def fsLookup : FS → String → Option Blob
  | [], _ => none
  | (p, b) :: rest, q => if p = q then some b else fsLookup rest q

def fsErase : FS → String → FS
  | [], _ => []
  | (p, b) :: rest, q => if p = q then fsErase rest q else (p, b) :: fsErase rest q

/-- Writing a file (creating or overwriting). -/
def fsInsert (fs : FS) (p : String) (b : Blob) : FS := (p, b) :: fsErase fs p

/-- Errors raised by the encryption module: a missing file, or the ValueError
with message "Invalid PIN or corrupted file" raised by decrypt_file when the
Fernet authentication check fails (the spec's BadPinOrTampered). -/
inductive CryptoError where
  | fileNotFound
  | badPinOrTampered
deriving DecidableEq

/-- Embedding of encrypt_file (src/build/hsparc/utils/study_encryption.py
lines 27-47): read the plaintext, seal it under the derived key, write it at
the path extended with ".enc", then delete the plaintext.  Returns the sealed
path and the new filesystem. -/
def encrypt_file (fs : FS) (filepath study_id pin : String) :
    Except CryptoError String × FS :=
  match fsLookup fs filepath with
  | none => (.error .fileNotFound, fs)
  | some data =>
    let key := derive_key_from_pin study_id pin
    let encrypted := fernetEncrypt key data
    let encrypted_path := filepath ++ ".enc"
    let fs1 := fsInsert fs encrypted_path encrypted
    (.ok encrypted_path, fsErase fs1 filepath)

/-- Embedding of decrypt_file (src/build/hsparc/utils/study_encryption.py
lines 50-72): read the sealed file, decrypt it, and on success write the
plaintext to the path obtained by prefixing "/tmp/" to the basename of the
sealed path after removing ".enc" occurrences.  On an authentication failure
nothing is written. -/
def decrypt_file (fs : FS) (encrypted_path study_id pin : String) :
    Except CryptoError String × FS :=
  match fsLookup fs encrypted_path with
  | none => (.error .fileNotFound, fs)
  | some encrypted =>
    match fernetDecrypt (derive_key_from_pin study_id pin) encrypted with
    | none => (.error .badPinOrTampered, fs)
    | some decrypted =>
      let temp_path := "/tmp/" ++ String.mk (basename (stripEnc encrypted_path.data))
      (.ok temp_path, fsInsert fs temp_path decrypted)

/-- Steps of encrypt_file at which a runtime failure can be injected, in
source order: reading the plaintext, sealing, writing the sealed blob, and
deleting the plaintext. -/
inductive EncStep where
  | readStep
  | sealStep
  | writeStep
  | removeStep
deriving DecidableEq

/-- Execution of encrypt_file with an optional injected failure.  The
filesystem effects reflect the source line by line: nothing is written before
the sealed-file write; the write opens the sealed path in "wb" mode (which
creates or truncates the file) before writing, so a failing write leaves a
partial sealed file, modelled as empty contents; a failing delete leaves both
the fully written sealed file and the plaintext.  The first component is the
returned sealed path, or none when the injected failure fired. -/
def encryptFileFailing (fs : FS) (filepath study_id pin : String)
    (failAt : Option EncStep) : Option String × FS :=
  if failAt = some .readStep then (none, fs) else
  match fsLookup fs filepath with
  | none => (none, fs)
  | some data =>
    if failAt = some .sealStep then (none, fs) else
    let encrypted := fernetEncrypt (derive_key_from_pin study_id pin) data
    let encrypted_path := filepath ++ ".enc"
    if failAt = some .writeStep then (none, fsInsert fs encrypted_path (Blob.plain [])) else
    let fs1 := fsInsert fs encrypted_path encrypted
    if failAt = some .removeStep then (none, fs1) else
    (some encrypted_path, fsErase fs1 filepath)

/-! ## Device reader: calibration normalisation and input filtering -/

/-- Truncation toward zero of a rational: the semantics of Python's int()
conversion applied to a float. -/
def ratTrunc (q : ℚ) : ℤ := if 0 ≤ q then ⌊q⌋ else ⌈q⌉

/-- Python's round() and numpy's rounding: round half to even. -/
def roundHalfEven (q : ℚ) : ℤ :=
  if q - ⌊q⌋ < 1 / 2 then ⌊q⌋
  else if 1 / 2 < q - ⌊q⌋ then ⌊q⌋ + 1
  else if ⌊q⌋ % 2 = 0 then ⌊q⌋ else ⌊q⌋ + 1

/-- Per-axis calibration bounds, mirroring the AxisCal dataclass built by
_Reader._parse_calibrations (src/v1.0.7/gamepad.py lines 91-117). -/
structure AxisCal where
  min_value : ℤ
  max_value : ℤ
deriving DecidableEq

/-- AxisCal.normalize (src/v1.0.7/gamepad.py lines 100-104): 0 when the
bounds coincide, otherwise (raw - min) / (max - min) rescaled by
normalized * 2 - 1.  There is no clamping in the source. -/
def AxisCal.normalize (c : AxisCal) (raw : ℤ) : ℚ :=
  if c.min_value = c.max_value then 0
  else ((raw : ℚ) - (c.min_value : ℚ)) / ((c.max_value : ℚ) - (c.min_value : ℚ)) * 2 - 1

/-- Value persisted for an EV_ABS event by _Reader.run (src/v1.0.7/gamepad.py
lines 148-159): with a calibration for the code, int(normalized * 1000);
otherwise the raw integer device value. -/
def axisStoredValue (cal : Option AxisCal) (raw : ℤ) : ℤ :=
  match cal with
  | some c => ratTrunc (c.normalize raw * 1000)
  | none => raw

/-- Clamping to the unit interval. -/
def clamp01 (q : ℚ) : ℚ := max 0 (min 1 q)

/-- Value the claim asserts for a calibrated axis event, written from the
claim's own formula for comparison with the source: int(round((2n - 1) *
1000)) with n = (raw - min) / (max - min) clamped to the unit interval. -/
def specAxisValue (c : AxisCal) (raw : ℤ) : ℤ :=
  roundHalfEven
    ((2 * clamp01 (((raw : ℚ) - (c.min_value : ℚ)) / ((c.max_value : ℚ) - (c.min_value : ℚ))) - 1)
      * 1000)

/-- Truth value of the drop condition in _Reader.run (src/v1.0.7/gamepad.py
lines 145 and 181): an event is skipped iff allowed_inputs is truthy
(present and non-empty) and the code is not a member.  Python's truthiness
makes an absent or empty allow-list accept every event. -/
def dropsEvent (allowed : Option (List String)) (code : String) : Bool :=
  match allowed with
  | none => false
  | some l => !l.isEmpty && !l.contains code

/-! ## Stream creation and the INIT marker -/

/-- An event row persisted on an input stream, restricted to the fields the
INIT-marker claim is about. -/
structure StreamEvent where
  t_ms : ℤ
  kind : String
  code : String
deriving DecidableEq

/-- Synthetic INIT marker written at stream creation: kind "button", code
"INIT", at the session's reference time. -/
def initEvent (t0 : ℤ) : StreamEvent := ⟨t0, "button", "INIT"⟩

/-- One controller-slot assignment (device path and participant name). -/
structure SlotAssign where
  path : String
  name : String
deriving DecidableEq

/-- Per-stream persisted event sequences when a session starts: one stream
per assigned slot; the INIT row is committed inside stream creation before
the gamepad poller starts, so each stream's sequence is the INIT marker at
the session's reference time t0 followed by that stream's live device
events. -/
def startSessionStreams (assigned : List SlotAssign) (t0 : ℤ)
    (liveOf : String → List StreamEvent) : List (String × List StreamEvent) :=
  assigned.map (fun slot => (slot.path, initEvent t0 :: liveOf slot.path))

/-- RecorderWindow._start (src/build/hsparc/ui/recorder.py lines 497-522)
writes the INIT event with t_ms = 0. -/
def recorderStart (assigned : List SlotAssign)
    (liveOf : String → List StreamEvent) : List (String × List StreamEvent) :=
  startSessionStreams assigned 0 liveOf

/-- ObserverWindow._start_session (src/v1.0.7/observer.py lines 688-752)
writes the INIT event with t_ms = t0 = int(self.player.position()), the
video position at which the observer session starts. -/
def observerStartSession (assigned : List SlotAssign) (playerPosition : ℤ)
    (liveOf : String → List StreamEvent) : List (String × List StreamEvent) :=
  startSessionStreams assigned playerPosition liveOf

/-! ## Trace alignment in the comprehensive analyzer -/

/-- numpy's np.interp at a single query point over an event series of
time-value pairs with increasing times: the first value before the first
time, the last value after the last time, linear interpolation between
bracketing points. -/
def interpAt : List (ℚ × ℚ) → ℚ → ℚ
  | [], _ => 0
  | [(_, v)], _ => v
  | (t1, v1) :: (t2, v2) :: rest, x =>
    if x ≤ t1 then v1
    else if x ≤ t2 then v1 + (v2 - v1) * (x - t1) / (t2 - t1)
    else interpAt ((t2, v2) :: rest) x

/-- Insertion into an ascending list, for the model of np.unique. -/
def insertSorted (x : ℚ) : List ℚ → List ℚ
  | [] => [x]
  | y :: ys => if x ≤ y then x :: y :: ys else y :: insertSorted x ys

/-- Sorting by insertion, for the model of np.unique. -/
def sortTimes (l : List ℚ) : List ℚ := l.foldr insertSorted []

/-- Removal of adjacent duplicates in a sorted list; sortTimes followed by
dedupSorted models np.unique (sorted distinct values). -/
def dedupSorted : List ℚ → List ℚ
  | [] => []
  | [x] => [x]
  | x :: y :: rest => if x = y then dedupSorted (y :: rest) else x :: dedupSorted (y :: rest)

/-- Embedding of ComprehensiveTraceAnalyzer._align_traces
(src/build/hsparc/analysis/comprehensive_analyzer.py lines 487-508): the
common timeline is the sorted distinct union of the two time arrays
restricted to the overlap of the two time ranges, and both traces are
resampled on it with np.interp.  Returns the common times and the two
aligned value arrays. -/
def alignTraces (data1 data2 : List (ℚ × ℚ)) : List ℚ × List ℚ × List ℚ :=
  let times1 := data1.map Prod.fst
  let times2 := data2.map Prod.fst
  let min_time := max (times1.headD 0) (times2.headD 0)
  let max_time := min (times1.getLastD 0) (times2.getLastD 0)
  let all_times := dedupSorted (sortTimes (times1 ++ times2))
  let common_times := all_times.filter (fun t => decide (min_time ≤ t ∧ t ≤ max_time))
  (common_times, common_times.map (interpAt data1), common_times.map (interpAt data2))

/-- First value of an event series, defaulting to 0 on the empty series. -/
def headVal (evs : List (ℚ × ℚ)) : ℚ := ((evs.head?).map Prod.snd).getD 0

/-- Last-value-carried-forward resampling as the specification words it: the
value at a query point is the value of the most recent event at or before
the point, and the series' first value for points before its first event. -/
def lvcfValue (evs : List (ℚ × ℚ)) (t : ℚ) : ℚ :=
  ((evs.filter (fun e => decide (e.1 ≤ t))).getLastD (evs.headD (0, 0))).2

/-! ## Time-series conversion -/

/-- Interpolation method parameter of convert_axis_events. -/
inductive Interp where
  | forward_fill
  | linear
deriving DecidableEq

/-- Advance of the persistent event index in the forward-fill loop of
convert_axis_events: drop leading events while the next event's time is at
or before the query time (the loop guard event_idx advance). -/
def ffAdvance : List (ℚ × ℚ) → ℚ → List (ℚ × ℚ)
  | [], _ => []
  | [e], _ => [e]
  | e1 :: e2 :: rest, t => if e2.1 ≤ t then ffAdvance (e2 :: rest) t else e1 :: e2 :: rest

/-- The forward-fill loop of convert_axis_events
(src/build/hsparc/utils/timeseries_converter.py lines 88-95): walk the
regular sample times with a persistent event index, emitting the current
event's value at each sample. -/
def ffStep (evs : List (ℚ × ℚ)) : List ℚ → List ℚ
  | [] => []
  | t :: rest => headVal (ffAdvance evs t) :: ffStep (ffAdvance evs t) rest

/-- The sampling period in milliseconds: 1000 / rate_hz. -/
def idealPeriod (rate : ℕ) : ℚ := 1000 / (rate : ℚ)

/-- Number of regular samples, int(np.ceil(max_time / interval)) + 1,
taken to 0 when negative as np.arange of a non-positive count is empty. -/
def sampleCount (rate : ℕ) (tLast : ℚ) : ℕ := (⌈tLast / idealPeriod rate⌉ + 1).toNat

/-- An integer event series as rational time-value pairs. -/
def toQPairs (times_ms values : List ℤ) : List (ℚ × ℚ) :=
  (times_ms.zip values).map (fun p => ((p.1 : ℚ), (p.2 : ℚ)))

/-- Embedding of TimeSeriesConverter.convert_axis_events
(src/build/hsparc/utils/timeseries_converter.py lines 41-107): empty input
returns empty lists; a length mismatch raises (none); otherwise the regular
sample times are i * period for i = 0 up to ceil(t_last / period), returned
as integers by the int32 conversion (truncation), and the values are either
forward-filled by the persistent-index loop or linearly interpolated with
np.interp, then rounded by np.round (half to even). -/
def convert_axis_events (rate : ℕ) (times_ms values : List ℤ) (interp : Interp) :
    Option (List ℤ × List ℤ) :=
  if times_ms.isEmpty ∨ values.isEmpty then some ([], [])
  else if times_ms.length ≠ values.length then none
  else
    let tLast : ℚ := ((times_ms.getLastD 0 : ℤ) : ℚ)
    let n := sampleCount rate tLast
    let regularTimes : List ℚ := (List.range n).map (fun i : ℕ => (i : ℚ) * idealPeriod rate)
    let evs := toQPairs times_ms values
    let regularValues : List ℚ :=
      match interp with
      | .forward_fill => ffStep evs regularTimes
      | .linear => regularTimes.map (fun t => interpAt evs t)
    some (regularTimes.map ratTrunc, regularValues.map roundHalfEven)

/-! ## Pairwise analysis helpers over the reals

The numpy float arrays of the analyzer are modelled as lists of reals; the
square root in np.std makes this part noncomputable, and comparisons use
classical decidability. -/

noncomputable section AnalysisHelpers

open Classical

/-- numpy's np.diff: consecutive differences. -/
def npDiff : List ℝ → List ℝ
  | [] => []
  | [_] => []
  | a :: b :: rest => (b - a) :: npDiff (b :: rest)

/-- numpy's np.mean. -/
def npMean (xs : List ℝ) : ℝ := xs.sum / xs.length

/-- numpy's np.var: the biased (population) variance. -/
def npVar (xs : List ℝ) : ℝ := ((xs.map (fun x => (x - npMean xs) ^ 2)).sum) / xs.length

/-- numpy's np.std: the square root of the biased variance. -/
def npStd (xs : List ℝ) : ℝ := Real.sqrt (npVar xs)

/-- Truncation toward zero of a real: Python's int() on a float. -/
def truncR (x : ℝ) : ℤ := if 0 ≤ x then ⌊x⌋ else ⌈x⌉

/-- Minimum of a float array (np.min). -/
def npMin : List ℝ → ℝ
  | [] => 0
  | x :: rest => rest.foldl min x

/-- Maximum of a float array (np.max). -/
def npMax : List ℝ → ℝ
  | [] => 0
  | x :: rest => rest.foldl max x

/-- Embedding of ComprehensiveTraceAnalyzer._detect_opposite_movements
(src/build/hsparc/analysis/comprehensive_analyzer.py lines 655-678): with at
least 2 samples, report int(times_ms at i) for every difference index i
where the two traces' differences have opposite signs and both magnitudes
exceed half the larger standard deviation of the differences. -/
def detectOppositeMovements (times_ms values1 values2 : List ℝ) : List ℤ :=
  if values1.length < 2 then []
  else
    let diff1 := npDiff values1
    let diff2 := npDiff values2
    let threshold := max (npStd diff1) (npStd diff2) * 0.5
    let opposite := (List.range diff1.length).filter (fun i =>
      decide (diff1.getD i 0 * diff2.getD i 0 < 0 ∧
        |diff1.getD i 0| > threshold ∧ |diff2.getD i 0| > threshold))
    (opposite.filter (fun i => decide (i < times_ms.length - 1))).map
      (fun i => truncR (times_ms.getD i 0))

/-- Loop state of _detect_convergence_divergence: the two in-region flags,
the region start index shared by both trackers, and the two event lists. -/
structure CDState where
  inConv : Bool
  inDiv : Bool
  startIdx : ℕ
  convEvents : List (ℤ × ℤ × ℝ)
  divEvents : List (ℤ × ℤ × ℝ)

/-- One iteration of the loop in _detect_convergence_divergence
(src/build/hsparc/analysis/comprehensive_analyzer.py lines 552-576): the
convergence tracker runs first, then the divergence tracker on the updated
state, both reading the normalised distance at index i and closing a region
when it ends, emitting it only when it lasted more than 500 ms. -/
def cdStep (times_ms normDist : List ℝ) (convT divT : ℝ)
    (st : CDState) (i : ℕ) : CDState :=
  let d := normDist.getD i 0
  let st1 :=
    if d < convT ∧ st.inConv = false then
      { st with startIdx := i, inConv := true }
    else if convT ≤ d ∧ st.inConv = true then
      if 500 < truncR (times_ms.getD (i - 1) 0 - times_ms.getD st.startIdx 0) then
        { st with
          inConv := false
          convEvents := st.convEvents ++
            [(truncR (times_ms.getD st.startIdx 0), truncR (times_ms.getD (i - 1) 0),
              1 - npMean ((normDist.drop st.startIdx).take (i - st.startIdx)))] }
      else { st with inConv := false }
    else st
  if divT < d ∧ st1.inDiv = false then
    { st1 with startIdx := i, inDiv := true }
  else if d ≤ divT ∧ st1.inDiv = true then
    if 500 < truncR (times_ms.getD (i - 1) 0 - times_ms.getD st1.startIdx 0) then
      { st1 with
        inDiv := false
        divEvents := st1.divEvents ++
          [(truncR (times_ms.getD st1.startIdx 0), truncR (times_ms.getD (i - 1) 0),
            npMean ((normDist.drop st1.startIdx).take (i - st1.startIdx)))] }
    else { st1 with inDiv := false }
  else st1

/-- Embedding of ComprehensiveTraceAnalyzer._detect_convergence_divergence
(src/build/hsparc/analysis/comprehensive_analyzer.py lines 533-578): with
fewer than 10 distances, or a distance spread below 0.001, both event lists
are empty; otherwise the distances are rescaled to the unit interval by
their own extremes and the loop collects convergence and divergence
regions. -/
def detectConvergenceDivergence (times_ms distances : List ℝ)
    (convT divT : ℝ) : List (ℤ × ℤ × ℝ) × List (ℤ × ℤ × ℝ) :=
  if distances.length < 10 then ([], [])
  else
    let dMin := npMin distances
    let dMax := npMax distances
    if dMax - dMin < 0.001 then ([], [])
    else
      let normDist := distances.map (fun d => (d - dMin) / (dMax - dMin))
      let finalState := (List.range normDist.length).foldl
        (cdStep times_ms normDist convT divT) ⟨false, false, 0, [], []⟩
      (finalState.convEvents, finalState.divEvents)

/-- One entry of np.correlate(a, v, mode full): the inner product of a with
v shifted by the given lag, out-of-range indices contributing zero. -/
def crossCorrAt (a v : List ℝ) (lag : ℤ) : ℝ :=
  ((List.range a.length).map (fun n =>
    a.getD n 0 *
      (if 0 ≤ (n : ℤ) - lag ∧ (n : ℤ) - lag < (v.length : ℤ) then v.getD ((n : ℤ) - lag).toNat 0
       else 0))).sum

/-- numpy's np.argmax of the absolute values: the first index attaining the
maximum. -/
def argmaxAbsIdx (l : List ℝ) : ℕ :=
  (List.range l.length).foldl
    (fun best k => if |l.getD best 0| < |l.getD k 0| then k else best) 0

/-- Embedding of ComprehensiveTraceAnalyzer._compute_lead_lag
(src/build/hsparc/analysis/comprehensive_analyzer.py lines 580-608): with
fewer than 10 samples the result is (0, 0.0); otherwise the full
cross-correlation of the zero-mean signals, normalised by the product of the
standard deviations and the length, is scanned for the lag of maximal
absolute value, converted to milliseconds through the average sample
interval. -/
def computeLeadLag (values1 values2 times_ms : List ℝ) : ℤ × ℝ :=
  if values1.length < 10 then (0, 0)
  else
    let n := values1.length
    let a := values1.map (fun x => x - npMean values1)
    let b := values2.map (fun x => x - npMean values2)
    let correlation := (List.range (2 * n - 1)).map
      (fun k => crossCorrAt a b ((k : ℤ) - ((n : ℤ) - 1)) / (npStd values1 * npStd values2 * n))
    let maxIdx := argmaxAbsIdx correlation
    let lagSamples : ℤ := (maxIdx : ℤ) - ((n : ℤ) - 1)
    let lagMs : ℤ :=
      if 1 < times_ms.length then
        truncR ((lagSamples : ℝ) *
          ((times_ms.getLastD 0 - times_ms.headD 0) / ((times_ms.length : ℝ) - 1)))
      else 0
    (lagMs, correlation.getD maxIdx 0)

end AnalysisHelpers

/-! ## Theorems -/

theorem mem_stripEnc_iff_slash (l : List Char) : '/' ∈ stripEnc l ↔ '/' ∈ l := by
  induction l using stripEnc.induct with
  | case1 rest ih =>
    rw [stripEnc.eq_1]
    simp only [List.mem_cons, ih]
    have h1 : ('/' : Char) ≠ '.' := by decide
    have h2 : ('/' : Char) ≠ 'e' := by decide
    have h3 : ('/' : Char) ≠ 'n' := by decide
    have h4 : ('/' : Char) ≠ 'c' := by decide
    simp [h1, h2, h3, h4]
  | case2 c rest hne ih =>
    rw [stripEnc.eq_2 c rest hne]
    simp [ih]
  | case3 => simp [stripEnc]

theorem basename_of_no_slash {l : List Char} (h : '/' ∉ l) : basename l = l := by
  cases l with
  | nil => rfl
  | cons c rest =>
    have hc : ¬ c = '/' := fun hc => h (by simp [hc])
    have hr : '/' ∉ rest := fun hr => h (by simp [hr])
    rw [basename, if_neg hc, if_neg (by simpa using hr)]

theorem basename_cons_of_slash_mem (c : Char) {rest : List Char} (h : '/' ∈ rest) :
    basename (c :: rest) = basename rest := by
  by_cases hc : c = '/'
  · rw [basename, if_pos hc]
  · rw [basename, if_neg hc, if_pos h]

theorem basename_stripEnc (l : List Char) :
    basename (stripEnc l) = stripEnc (basename l) := by
  induction l using stripEnc.induct with
  | case1 rest ih =>
    rw [stripEnc.eq_1]
    by_cases hs : '/' ∈ rest
    · have hb : basename ('.' :: 'e' :: 'n' :: 'c' :: rest) = basename rest := by
        rw [basename_cons_of_slash_mem '.' (by simp [hs]),
          basename_cons_of_slash_mem 'e' (by simp [hs]),
          basename_cons_of_slash_mem 'n' (by simp [hs]),
          basename_cons_of_slash_mem 'c' hs]
      rw [hb]
      exact ih
    · have h1 : '/' ∉ '.' :: 'e' :: 'n' :: 'c' :: rest := by
        intro hm
        simp only [List.mem_cons] at hm
        rcases hm with hm | hm | hm | hm | hm
        · exact absurd hm (by decide)
        · exact absurd hm (by decide)
        · exact absurd hm (by decide)
        · exact absurd hm (by decide)
        · exact hs hm
      rw [basename_of_no_slash (fun hm => hs ((mem_stripEnc_iff_slash _).mp hm)),
        basename_of_no_slash h1, stripEnc.eq_1]
  | case2 c rest hne ih =>
    rw [stripEnc.eq_2 c rest hne]
    by_cases hc : c = '/'
    · subst hc
      rw [basename, if_pos rfl, ih, basename, if_pos rfl]
    · by_cases hs : '/' ∈ rest
      · rw [basename_cons_of_slash_mem c ((mem_stripEnc_iff_slash rest).mpr hs), ih,
          basename_cons_of_slash_mem c hs]
      · rw [basename_of_no_slash (l := c :: stripEnc rest), basename_of_no_slash (l := c :: rest),
          stripEnc.eq_2 c rest hne]
        · intro hm
          rcases List.mem_cons.mp hm with hm | hm
          · exact hc hm.symm
          · exact hs hm
        · intro hm
          rcases List.mem_cons.mp hm with hm | hm
          · exact hc hm.symm
          · exact hs ((mem_stripEnc_iff_slash rest).mp hm)
  | case3 => simp [stripEnc, basename]

theorem fsLookup_fsErase_self (fs : FS) (p : String) : fsLookup (fsErase fs p) p = none := by
  induction fs with
  | nil => rfl
  | cons hd rest ih =>
    obtain ⟨q, b⟩ := hd
    by_cases h : q = p
    · rw [fsErase, if_pos h]; exact ih
    · rw [fsErase, if_neg h, fsLookup, if_neg h]; exact ih

theorem fsLookup_fsErase_ne (fs : FS) {p q : String} (h : q ≠ p) :
    fsLookup (fsErase fs p) q = fsLookup fs q := by
  induction fs with
  | nil => rfl
  | cons hd rest ih =>
    obtain ⟨r, b⟩ := hd
    by_cases hr : r = p
    · rw [fsErase, if_pos hr, fsLookup, if_neg (hr ▸ fun hq => h hq.symm)]
      exact ih
    · rw [fsErase, if_neg hr, fsLookup, fsLookup]
      by_cases hq : r = q
      · rw [if_pos hq, if_pos hq]
      · rw [if_neg hq, if_neg hq]; exact ih

theorem fsLookup_fsInsert_self (fs : FS) (p : String) (b : Blob) :
    fsLookup (fsInsert fs p b) p = some b := by
  rw [fsInsert, fsLookup, if_pos rfl]

theorem fsLookup_fsInsert_ne (fs : FS) {p q : String} (b : Blob) (h : q ≠ p) :
    fsLookup (fsInsert fs p b) q = fsLookup fs q := by
  rw [fsInsert, fsLookup, if_neg (fun hq => h hq.symm)]
  exact fsLookup_fsErase_ne fs h

theorem append_enc_ne (p : String) : p ++ ".enc" ≠ p := by
  intro h
  have hlen := congrArg String.length h
  rw [String.length_append] at hlen
  have h4 : (".enc" : String).length = 4 := rfl
  omega

theorem decrypt_ok_path {fs : FS} {p study pin r : String} {g : FS}
    (h : decrypt_file fs p study pin = (Except.ok r, g)) :
    r = "/tmp/" ++ String.mk (basename (stripEnc p.data)) := by
  unfold decrypt_file at h
  cases hl : fsLookup fs p with
  | none => rw [hl] at h; simp at h
  | some b =>
    rw [hl] at h
    dsimp only [] at h
    cases hd : fernetDecrypt (derive_key_from_pin study pin) b with
    | none => rw [hd] at h; simp at h
    | some d =>
      rw [hd] at h
      simp only [Prod.mk.injEq, Except.ok.injEq] at h
      exact h.1.symm

/-- C3: for every file contents, study id and PIN, decrypting the sealed
file produced by encrypt_file with the same study id and PIN yields contents
identical to the original plaintext. -/
theorem encrypt_decrypt_roundtrip (fs : FS) (path study pin : String) (data : Blob)
    (h : fsLookup fs path = some data) :
    ∃ g tmp g2,
      encrypt_file fs path study pin = (Except.ok (path ++ ".enc"), g) ∧
      decrypt_file g (path ++ ".enc") study pin = (Except.ok tmp, g2) ∧
      fsLookup g2 tmp = some data := by
  have h1 : encrypt_file fs path study pin =
      (Except.ok (path ++ ".enc"),
        fsErase (fsInsert fs (path ++ ".enc")
          (fernetEncrypt (derive_key_from_pin study pin) data)) path) := by
    unfold encrypt_file
    rw [h]
  have h2 : fsLookup
      (fsErase (fsInsert fs (path ++ ".enc")
        (fernetEncrypt (derive_key_from_pin study pin) data)) path) (path ++ ".enc") =
      some (fernetEncrypt (derive_key_from_pin study pin) data) := by
    rw [fsLookup_fsErase_ne _ (append_enc_ne path), fsLookup_fsInsert_self]
  have h3 : decrypt_file
      (fsErase (fsInsert fs (path ++ ".enc")
        (fernetEncrypt (derive_key_from_pin study pin) data)) path)
      (path ++ ".enc") study pin =
      (Except.ok ("/tmp/" ++ String.mk (basename (stripEnc (path ++ ".enc").data))),
        fsInsert
          (fsErase (fsInsert fs (path ++ ".enc")
            (fernetEncrypt (derive_key_from_pin study pin) data)) path)
          ("/tmp/" ++ String.mk (basename (stripEnc (path ++ ".enc").data))) data) := by
    unfold decrypt_file
    rw [h2]
    simp [fernetEncrypt, fernetDecrypt]
  exact ⟨_, _, _, h1, h3, fsLookup_fsInsert_self _ _ _⟩

theorem encrypt_decrypt_roundtrip_witness :
    fsLookup [("video.mp4", Blob.plain [1, 2, 3])] "video.mp4" = some (Blob.plain [1, 2, 3]) ∧
    ∃ g tmp g2,
      encrypt_file [("video.mp4", Blob.plain [1, 2, 3])] "video.mp4" "study1" "1234" =
        (Except.ok ("video.mp4" ++ ".enc"), g) ∧
      decrypt_file g ("video.mp4" ++ ".enc") "study1" "1234" = (Except.ok tmp, g2) ∧
      fsLookup g2 tmp = some (Blob.plain [1, 2, 3]) :=
  ⟨by decide,
    encrypt_decrypt_roundtrip [("video.mp4", Blob.plain [1, 2, 3])] "video.mp4" "study1" "1234"
      (Blob.plain [1, 2, 3]) (by decide)⟩

/-- C4 counterexample: a failure at the plaintext-deletion step of
encrypt_file leaves the fully written sealed file on disk (and the plaintext
as well), contradicting the claim that after a failure at any step no sealed
file exists on disk. -/
theorem encrypt_file_failure_sealed_file_remains :
    (encryptFileFailing [("v.mp4", Blob.plain [1])] "v.mp4" "s" "p" (some EncStep.removeStep)).1 =
      none ∧
    fsLookup (encryptFileFailing [("v.mp4", Blob.plain [1])] "v.mp4" "s" "p"
        (some EncStep.removeStep)).2 "v.mp4.enc" =
      some (Blob.token ("s", "p") (Blob.plain [1])) ∧
    fsLookup (encryptFileFailing [("v.mp4", Blob.plain [1])] "v.mp4" "s" "p"
        (some EncStep.removeStep)).2 "v.mp4" =
      some (Blob.plain [1]) := by
  decide

/-- C4 (amended): a failure of encrypt_file while reading or sealing leaves
the plaintext in place and the filesystem unchanged, so no sealed file
appears; a failure while writing the sealed blob leaves the plaintext in
place but a partial sealed file on disk; a failure while deleting the
plaintext leaves both the plaintext and the complete sealed file on disk. -/
theorem encrypt_file_failure_effects (fs : FS) (path study pin : String) (data : Blob)
    (h : fsLookup fs path = some data) :
    encryptFileFailing fs path study pin (some .readStep) = (none, fs) ∧
    encryptFileFailing fs path study pin (some .sealStep) = (none, fs) ∧
    (fsLookup (encryptFileFailing fs path study pin (some .writeStep)).2 path = some data ∧
      fsLookup (encryptFileFailing fs path study pin (some .writeStep)).2 (path ++ ".enc") =
        some (Blob.plain [])) ∧
    (fsLookup (encryptFileFailing fs path study pin (some .removeStep)).2 path = some data ∧
      fsLookup (encryptFileFailing fs path study pin (some .removeStep)).2 (path ++ ".enc") =
        some (fernetEncrypt (derive_key_from_pin study pin) data)) := by
  have hne : path ≠ path ++ ".enc" := (append_enc_ne path).symm
  refine ⟨?_, ?_, ⟨?_, ?_⟩, ⟨?_, ?_⟩⟩
  · simp [encryptFileFailing]
  · simp [encryptFileFailing, h]
  · simp only [encryptFileFailing, h]
    simp [fsLookup_fsInsert_ne _ _ hne, h]
  · simp only [encryptFileFailing, h]
    simp [fsLookup_fsInsert_self]
  · simp only [encryptFileFailing, h]
    simp [fsLookup_fsInsert_ne _ _ hne, h]
  · simp only [encryptFileFailing, h]
    simp [fsLookup_fsInsert_self]

theorem encrypt_file_failure_effects_witness :
    fsLookup [("w.mp4", Blob.plain [2])] "w.mp4" = some (Blob.plain [2]) ∧
    (encryptFileFailing [("w.mp4", Blob.plain [2])] "w.mp4" "s" "p" (some .readStep) =
      (none, [("w.mp4", Blob.plain [2])]) ∧
    encryptFileFailing [("w.mp4", Blob.plain [2])] "w.mp4" "s" "p" (some .sealStep) =
      (none, [("w.mp4", Blob.plain [2])]) ∧
    (fsLookup (encryptFileFailing [("w.mp4", Blob.plain [2])] "w.mp4" "s" "p"
        (some .writeStep)).2 "w.mp4" = some (Blob.plain [2]) ∧
      fsLookup (encryptFileFailing [("w.mp4", Blob.plain [2])] "w.mp4" "s" "p"
        (some .writeStep)).2 ("w.mp4" ++ ".enc") = some (Blob.plain [])) ∧
    (fsLookup (encryptFileFailing [("w.mp4", Blob.plain [2])] "w.mp4" "s" "p"
        (some .removeStep)).2 "w.mp4" = some (Blob.plain [2]) ∧
      fsLookup (encryptFileFailing [("w.mp4", Blob.plain [2])] "w.mp4" "s" "p"
        (some .removeStep)).2 ("w.mp4" ++ ".enc") =
        some (fernetEncrypt (derive_key_from_pin "s" "p") (Blob.plain [2])))) :=
  ⟨by decide,
    encrypt_file_failure_effects [("w.mp4", Blob.plain [2])] "w.mp4" "s" "p" (Blob.plain [2])
      (by decide)⟩

/-- C8: decrypting a sealed file with a PIN different from the one it was
sealed under, or a blob that is not a well-formed token (tampered), fails
with the bad-PIN-or-tampered error, and the filesystem is unchanged: no
plaintext file is produced. -/
theorem decrypt_wrong_pin_or_tampered
    (fs : FS) (p study pin pin2 : String) (data : Blob) (bytes : List Nat) :
    (pin2 ≠ pin →
      fsLookup fs p = some (fernetEncrypt (derive_key_from_pin study pin) data) →
      decrypt_file fs p study pin2 = (Except.error CryptoError.badPinOrTampered, fs)) ∧
    (fsLookup fs p = some (Blob.plain bytes) →
      decrypt_file fs p study pin2 = (Except.error CryptoError.badPinOrTampered, fs)) := by
  constructor
  · intro hne hl
    have hk : derive_key_from_pin study pin ≠ derive_key_from_pin study pin2 :=
      fun hEq => hne (congrArg Prod.snd hEq).symm
    unfold decrypt_file
    rw [hl]
    simp [fernetEncrypt, fernetDecrypt, if_neg hk]
  · intro hl
    unfold decrypt_file
    rw [hl]
    rfl

theorem decrypt_wrong_pin_or_tampered_witness :
    ("9999" : String) ≠ "1234" ∧
    fsLookup [("v.mp4.enc", Blob.token ("s", "1234") (Blob.plain [7]))] "v.mp4.enc" =
      some (fernetEncrypt (derive_key_from_pin "s" "1234") (Blob.plain [7])) ∧
    decrypt_file [("v.mp4.enc", Blob.token ("s", "1234") (Blob.plain [7]))] "v.mp4.enc" "s" "9999" =
      (Except.error CryptoError.badPinOrTampered,
        [("v.mp4.enc", Blob.token ("s", "1234") (Blob.plain [7]))]) :=
  ⟨by decide, by decide,
    (decrypt_wrong_pin_or_tampered
      [("v.mp4.enc", Blob.token ("s", "1234") (Blob.plain [7]))] "v.mp4.enc" "s" "1234" "9999"
      (Blob.plain [7]) []).1 (by decide) (by decide)⟩

/-- C10: the temporary path returned by decrypt_file equals the basename of
the sealed path with the ".enc" occurrences removed, prefixed by the fixed
shared directory "/tmp/"; it does not depend on the sealed file's directory,
the study id or the PIN, so any two sealed paths with equal basenames
decrypt onto the same output path. -/
theorem decrypt_file_output_path_shared
    (fs1 fs2 : FS) (p1 p2 study1 study2 pin1 pin2 r1 r2 : String) (g1 g2 : FS)
    (hb : basename p1.data = basename p2.data)
    (h1 : decrypt_file fs1 p1 study1 pin1 = (Except.ok r1, g1))
    (h2 : decrypt_file fs2 p2 study2 pin2 = (Except.ok r2, g2)) :
    r1 = "/tmp/" ++ String.mk (stripEnc (basename p1.data)) ∧ r1 = r2 := by
  have e1 := decrypt_ok_path h1
  have e2 := decrypt_ok_path h2
  constructor
  · rw [e1, basename_stripEnc]
  · rw [e1, e2, basename_stripEnc, basename_stripEnc, hb]

theorem decrypt_file_output_path_shared_witness :
    basename ("a/x.enc" : String).data = basename ("b.enc/x.enc" : String).data ∧
    (("/tmp/x" : String) = "/tmp/" ++ String.mk (stripEnc (basename ("a/x.enc" : String).data)) ∧
      ("/tmp/x" : String) = "/tmp/x") :=
  ⟨by decide,
    decrypt_file_output_path_shared
      [("a/x.enc", Blob.token ("s", "p") (Blob.plain [1]))]
      [("b.enc/x.enc", Blob.token ("t", "q") (Blob.plain [2]))]
      "a/x.enc" "b.enc/x.enc" "s" "t" "p" "q" "/tmp/x" "/tmp/x"
      [("/tmp/x", Blob.plain [1]), ("a/x.enc", Blob.token ("s", "p") (Blob.plain [1]))]
      [("/tmp/x", Blob.plain [2]), ("b.enc/x.enc", Blob.token ("t", "q") (Blob.plain [2]))]
      (by decide) (by rfl) (by rfl)⟩

theorem ratTrunc_bounds {q : ℚ} {b : ℤ} (hb : 0 ≤ b) (hlo : -(b : ℚ) ≤ q) (hhi : q ≤ (b : ℚ)) :
    -b ≤ ratTrunc q ∧ ratTrunc q ≤ b := by
  unfold ratTrunc
  split
  case isTrue h =>
    constructor
    · have h0 : (0 : ℤ) ≤ ⌊q⌋ := Int.le_floor.mpr (by exact_mod_cast h)
      omega
    · have := Int.floor_le_floor hhi
      rwa [Int.floor_intCast] at this
  case isFalse h =>
    constructor
    · have := Int.ceil_le_ceil hlo
      rwa [show -(b : ℚ) = ((-b : ℤ) : ℚ) by push_cast; ring, Int.ceil_intCast] at this
    · have h0 : ⌈q⌉ ≤ 0 := by
        rw [show (0 : ℤ) = ⌈(0 : ℚ)⌉ by simp]
        exact Int.ceil_le_ceil (le_of_lt (lt_of_not_le h))
      omega

/-- C2 counterexample: with calibration bounds 0 and 10, the raw value 20
(outside the calibration range) is stored as 3000, outside the claimed
interval, while the claim's clamped-and-rounded formula gives 1000; and with
bounds 0 and 2048, raw 1045 is stored as 20 (int() truncation toward zero)
where the claim's rounding gives 21. -/
theorem axis_stored_value_counterexample :
    axisStoredValue (some ⟨0, 10⟩) 20 = 3000 ∧
    specAxisValue ⟨0, 10⟩ 20 = 1000 ∧
    ¬ axisStoredValue (some ⟨0, 10⟩) 20 ≤ 1000 ∧
    axisStoredValue (some ⟨0, 2048⟩) 1045 = 20 ∧
    specAxisValue ⟨0, 2048⟩ 1045 = 21 := by
  refine ⟨?_, ?_, ?_, ?_, ?_⟩
  · simp only [axisStoredValue, AxisCal.normalize]
    norm_num [ratTrunc]
  · simp only [specAxisValue, clamp01]
    norm_num [roundHalfEven]
  · simp only [axisStoredValue, AxisCal.normalize]
    norm_num [ratTrunc]
  · simp only [axisStoredValue, AxisCal.normalize]
    norm_num [ratTrunc]
  · simp only [specAxisValue, clamp01]
    norm_num [roundHalfEven]

/-- C2 (amended): for a calibrated axis code the persisted value is the
int() truncation toward zero of (2n - 1) * 1000 where n = (raw - min) /
(max - min) is not clamped (and 0 when min = max); consequently the
persisted value lies between -1000 and 1000 whenever the raw value lies
within the calibration range, while raw values outside the range may yield
values outside that interval; without calibration the raw integer device
value is persisted. -/
theorem axis_stored_value_amended (c : AxisCal) (raw : ℤ)
    (hlt : c.min_value < c.max_value)
    (hlo : c.min_value ≤ raw) (hhi : raw ≤ c.max_value) :
    (-1000 ≤ axisStoredValue (some c) raw ∧ axisStoredValue (some c) raw ≤ 1000) ∧
    axisStoredValue none raw = raw := by
  refine ⟨?_, rfl⟩
  have hne : c.min_value ≠ c.max_value := ne_of_lt hlt
  have hden : (0 : ℚ) < (c.max_value : ℚ) - (c.min_value : ℚ) := by
    rw [sub_pos]
    exact_mod_cast hlt
  set n : ℚ := ((raw : ℚ) - (c.min_value : ℚ)) / ((c.max_value : ℚ) - (c.min_value : ℚ)) with hn
  have hn0 : 0 ≤ n := div_nonneg (by rw [sub_nonneg]; exact_mod_cast hlo) (le_of_lt hden)
  have hn1 : n ≤ 1 := by
    rw [hn, div_le_one hden]
    have hc : (raw : ℚ) ≤ (c.max_value : ℚ) := by exact_mod_cast hhi
    linarith
  have hval : axisStoredValue (some c) raw = ratTrunc ((n * 2 - 1) * 1000) := by
    simp only [axisStoredValue, AxisCal.normalize, if_neg hne, hn]
  rw [hval]
  exact ratTrunc_bounds (by norm_num) (by push_cast; linarith) (by push_cast; linarith)

theorem axis_stored_value_amended_witness :
    ((0 : ℤ) < 10 ∧ (0 : ℤ) ≤ 5 ∧ (5 : ℤ) ≤ 10) ∧
    ((-1000 ≤ axisStoredValue (some ⟨0, 10⟩) 5 ∧ axisStoredValue (some ⟨0, 10⟩) 5 ≤ 1000) ∧
      axisStoredValue none 5 = 5) :=
  ⟨⟨by decide, by decide, by decide⟩,
    axis_stored_value_amended ⟨0, 10⟩ 5 (by decide) (by decide) (by decide)⟩

/-- C6 counterexample: with an empty allow-list present, an event whose code
is (vacuously) not a member of the allow-list is nevertheless not dropped,
because the truthiness test treats an empty list like an absent one. -/
theorem drops_event_counterexample :
    dropsEvent (some []) "ABS_X" = false ∧ "ABS_X" ∉ ([] : List String) := by
  decide

/-- C6 (amended): when allowed_inputs is present and non-empty, a device
event is dropped before persistence exactly when its code is not a member
of the allow-list; when allowed_inputs is absent or is the empty set, every
event is accepted. -/
theorem drops_event_amended (l : List String) (code : String) (hne : l ≠ []) :
    dropsEvent none code = false ∧
    dropsEvent (some []) code = false ∧
    (dropsEvent (some l) code = true ↔ code ∉ l) := by
  refine ⟨rfl, rfl, ?_⟩
  cases l with
  | nil => exact absurd rfl hne
  | cons a rest => simp [dropsEvent]

theorem drops_event_amended_witness :
    (["BTN_SOUTH"] : List String) ≠ [] ∧
    (dropsEvent none "ABS_X" = false ∧
      dropsEvent (some []) "ABS_X" = false ∧
      (dropsEvent (some ["BTN_SOUTH"]) "ABS_X" = true ↔ "ABS_X" ∉ (["BTN_SOUTH"] : List String))) :=
  ⟨by decide, drops_event_amended ["BTN_SOUTH"] "ABS_X" (by decide)⟩

/-- C5 counterexample: a stream created by the observer session start while
the video position is 5000 ms has as its first persisted event an INIT
marker with t_ms = 5000, not 0. -/
theorem observer_init_counterexample :
    observerStartSession [⟨"/dev/input/event3", "A"⟩] 5000 (fun _ => []) =
      [("/dev/input/event3", [initEvent 5000])] ∧
    (initEvent 5000).t_ms = 5000 ∧ (5000 : ℤ) ≠ 0 := by
  decide

/-- C5 (amended): for every newly created input stream, the first event
persisted is the synthetic INIT marker (kind "button", code "INIT") at the
session's reference time t0, persisted before every live device event of the
stream; the recorder path uses t0 = 0 while the observer path uses the video
position at session start, which need not be 0. -/
theorem stream_first_event_init (assigned : List SlotAssign) (t0 : ℤ)
    (liveOf : String → List StreamEvent) (p : String) (evs : List StreamEvent)
    (hm : (p, evs) ∈ startSessionStreams assigned t0 liveOf) :
    evs = initEvent t0 :: liveOf p ∧
    (initEvent t0).code = "INIT" ∧ (initEvent t0).kind = "button" ∧ (initEvent t0).t_ms = t0 ∧
    recorderStart assigned liveOf = startSessionStreams assigned 0 liveOf ∧
    observerStartSession assigned t0 liveOf = startSessionStreams assigned t0 liveOf := by
  refine ⟨?_, rfl, rfl, rfl, rfl, rfl⟩
  obtain ⟨slot, hs, heq⟩ := List.mem_map.mp hm
  simp only [Prod.mk.injEq] at heq
  obtain ⟨hp, hevs⟩ := heq
  subst hp
  exact hevs.symm

theorem stream_first_event_init_witness :
    (("/dev/input/event0", [initEvent 0, ⟨12, "axis", "ABS_X"⟩]) ∈
      startSessionStreams [⟨"/dev/input/event0", "A"⟩] 0
        (fun _ => [⟨12, "axis", "ABS_X"⟩])) ∧
    ([initEvent 0, ⟨12, "axis", "ABS_X"⟩] =
        initEvent 0 :: (fun _ => [(⟨12, "axis", "ABS_X"⟩ : StreamEvent)]) "/dev/input/event0" ∧
      (initEvent 0).code = "INIT" ∧ (initEvent 0).kind = "button" ∧ (initEvent 0).t_ms = 0 ∧
      recorderStart [⟨"/dev/input/event0", "A"⟩] (fun _ => [⟨12, "axis", "ABS_X"⟩]) =
        startSessionStreams [⟨"/dev/input/event0", "A"⟩] 0 (fun _ => [⟨12, "axis", "ABS_X"⟩]) ∧
      observerStartSession [⟨"/dev/input/event0", "A"⟩] 0 (fun _ => [⟨12, "axis", "ABS_X"⟩]) =
        startSessionStreams [⟨"/dev/input/event0", "A"⟩] 0 (fun _ => [⟨12, "axis", "ABS_X"⟩])) :=
  ⟨by decide,
    stream_first_event_init [⟨"/dev/input/event0", "A"⟩] 0 (fun _ => [⟨12, "axis", "ABS_X"⟩])
      "/dev/input/event0" [initEvent 0, ⟨12, "axis", "ABS_X"⟩] (by decide)⟩

/-- C1: the alignment step does not resample by last-value-carried-forward.
At the input below the common timeline is 0, 5, 10 and _align_traces gives
the first trace the value 5 at the point 5 — the linear interpolant computed
by np.interp — whereas the most recent sample of that trace at or before 5
has value 0, which is what the claim (and the function's own forward-fill
docstring) requires. -/
theorem align_traces_linear_not_lvcf :
    alignTraces [(0, 0), (10, 10)] [(0, 0), (5, 0), (10, 0)] =
      ([0, 5, 10], [0, 5, 10], [0, 0, 0]) ∧
    lvcfValue [(0, 0), (10, 10)] 5 = 0 ∧ (5 : ℚ) ≠ 0 := by
  refine ⟨?_, ?_, by norm_num⟩
  · norm_num [alignTraces, sortTimes, insertSorted, dedupSorted, interpAt, List.filter]
  · norm_num [lvcfValue, List.filter, List.getLastD]

theorem ffAdvance_pairwise (R : ℚ × ℚ → ℚ × ℚ → Prop) (evs : List (ℚ × ℚ)) (t : ℚ) :
    List.Pairwise R evs → List.Pairwise R (ffAdvance evs t) := by
  induction evs, t using ffAdvance.induct with
  | case1 t => exact fun h => h
  | case2 e t => exact fun h => h
  | case3 e1 e2 rest t hle ih =>
    intro h
    rw [ffAdvance.eq_3, if_pos hle]
    exact ih h.of_cons
  | case4 e1 e2 rest t hlt =>
    intro h
    rw [ffAdvance.eq_3, if_neg hlt]
    exact h

theorem ffAdvance_comp (evs : List (ℚ × ℚ)) (t : ℚ) :
    ∀ t' : ℚ, t ≤ t' → ffAdvance (ffAdvance evs t) t' = ffAdvance evs t' := by
  induction evs, t using ffAdvance.induct with
  | case1 t => intro t' h; rfl
  | case2 e t => intro t' h; rfl
  | case3 e1 e2 rest t hle ih =>
    intro t' h
    rw [ffAdvance.eq_3 t, if_pos hle, ih t' h, ffAdvance.eq_3 t', if_pos (le_trans hle h)]
  | case4 e1 e2 rest t hlt =>
    intro t' h
    rw [ffAdvance.eq_3 t, if_neg hlt]

theorem headVal_ffAdvance (evs : List (ℚ × ℚ)) (t : ℚ) :
    List.Pairwise (fun a b : ℚ × ℚ => a.1 < b.1) evs →
    headVal (ffAdvance evs t) = lvcfValue evs t := by
  induction evs, t using ffAdvance.induct with
  | case1 t => intro _; rfl
  | case2 e t =>
    intro _
    rw [ffAdvance.eq_2]
    by_cases h : e.1 ≤ t
    · simp [lvcfValue, headVal, List.filter_cons, h]
    · simp [lvcfValue, headVal, List.filter_cons, h]
  | case3 e1 e2 rest t hle ih =>
    intro hp
    rw [ffAdvance.eq_3, if_pos hle, ih hp.of_cons]
    have hf2 : List.filter (fun e => decide (e.1 ≤ t)) (e2 :: rest) =
        e2 :: List.filter (fun e => decide (e.1 ≤ t)) rest := by
      simp [List.filter_cons, hle]
    by_cases h1 : e1.1 ≤ t
    · have hf1 : List.filter (fun e => decide (e.1 ≤ t)) (e1 :: e2 :: rest) =
          e1 :: e2 :: List.filter (fun e => decide (e.1 ≤ t)) rest := by
        simp [List.filter_cons, h1, hle]
      unfold lvcfValue
      rw [hf1, hf2, List.getLastD_cons, List.getLastD_cons, List.getLastD_cons]
    · have hf1 : List.filter (fun e => decide (e.1 ≤ t)) (e1 :: e2 :: rest) =
          e2 :: List.filter (fun e => decide (e.1 ≤ t)) rest := by
        simp [List.filter_cons, h1, hle]
      unfold lvcfValue
      rw [hf1, hf2, List.getLastD_cons, List.getLastD_cons]
  | case4 e1 e2 rest t hlt =>
    intro hp
    rw [ffAdvance.eq_3, if_neg hlt]
    have hrest : ∀ x ∈ rest, ¬ x.1 ≤ t := by
      intro x hx
      have h2x : e2.1 < x.1 := (List.pairwise_cons.mp (List.pairwise_cons.mp hp).2).1 x hx
      intro hxt
      exact hlt (le_trans (le_of_lt h2x) hxt)
    have hf2 : List.filter (fun e => decide (e.1 ≤ t)) (e2 :: rest) = [] := by
      rw [List.filter_cons, if_neg (by simp [hlt])]
      rw [List.filter_eq_nil_iff]
      intro x hx
      simp [hrest x hx]
    by_cases h1 : e1.1 ≤ t
    · have hf1 : List.filter (fun e => decide (e.1 ≤ t)) (e1 :: e2 :: rest) = [e1] := by
        rw [List.filter_cons, if_pos (by simp [h1])]
        rw [show List.filter (fun e => decide (e.1 ≤ t)) (e2 :: rest) = [] from hf2]
      unfold lvcfValue headVal
      rw [hf1]
      rfl
    · have hf1 : List.filter (fun e => decide (e.1 ≤ t)) (e1 :: e2 :: rest) = [] := by
        rw [List.filter_cons, if_neg (by simp [h1])]
        exact hf2
      unfold lvcfValue headVal
      rw [hf1]
      rfl

theorem ffStep_eq_map (ts : List ℚ) : ∀ (evs : List (ℚ × ℚ)),
    List.Pairwise (fun a b : ℚ × ℚ => a.1 < b.1) evs →
    List.Pairwise (· ≤ ·) ts →
    ffStep evs ts = ts.map (lvcfValue evs) := by
  induction ts with
  | nil => intro evs _ _; rfl
  | cons t rest ih =>
    intro evs hsorted hts
    rw [ffStep, List.map_cons]
    congr 1
    · exact headVal_ffAdvance evs t hsorted
    · rw [ih (ffAdvance evs t) (ffAdvance_pairwise _ evs t hsorted) hts.of_cons]
      apply List.map_congr_left
      intro t' ht'
      have htt : t ≤ t' := (List.pairwise_cons.mp hts).1 t' ht'
      rw [← headVal_ffAdvance (ffAdvance evs t) t' (ffAdvance_pairwise _ evs t hsorted),
        ffAdvance_comp evs t t' htt, headVal_ffAdvance evs t' hsorted]

/-- C9 counterexample: at rate 30 the period is 1000/30, not an integer, and
the emitted integer timeline for events at 0 and 100 ms is 0, 33, 66, 100 —
the truncations of the ideal sample instants — so the second emitted time is
not equal to the period and the timeline is not equispaced. -/
theorem convert_axis_timeline_counterexample :
    convert_axis_events 30 [0, 100] [0, 7] .forward_fill = some ([0, 33, 66, 100], [0, 0, 0, 7]) ∧
    (33 : ℚ) ≠ idealPeriod 30 ∧ ((100 : ℤ) - 66 ≠ 66 - 33) := by
  refine ⟨?_, by norm_num [idealPeriod], by norm_num⟩
  norm_num [convert_axis_events, sampleCount, idealPeriod, toQPairs, ffStep, ffAdvance, headVal,
    ratTrunc, roundHalfEven, Function.comp, show List.range (Int.toNat 4) = [0, 1, 2, 3] from rfl]

/-- C9 (amended): for a non-empty strictly increasing axis event series and a
positive sampling rate, convert_axis_events with forward_fill emits
ceil(t_last / period) + 1 samples whose emitted integer times are the floors
of the ideal instants i * period (exactly i * period when the rate divides
1000), and whose i-th value is the np.round of the most recent input value
at or before the ideal instant i * period, with the first input value for
instants before the first sample. -/
theorem convert_axis_forward_fill_amended (rate : ℕ) (times_ms values : List ℤ)
    (hr : 0 < rate) (hne : times_ms ≠ []) (hlen : times_ms.length = values.length)
    (hsorted : List.Pairwise (· < ·) times_ms) :
    convert_axis_events rate times_ms values .forward_fill =
      some
        ((List.range (sampleCount rate ((times_ms.getLastD 0 : ℤ) : ℚ))).map
            (fun i : ℕ => ⌊(i : ℚ) * idealPeriod rate⌋),
          (List.range (sampleCount rate ((times_ms.getLastD 0 : ℤ) : ℚ))).map
            (fun i : ℕ =>
              roundHalfEven (lvcfValue (toQPairs times_ms values) ((i : ℚ) * idealPeriod rate)))) := by
  have hnev : values ≠ [] := by
    intro hv
    rw [hv] at hlen
    simp only [List.length_nil] at hlen
    exact hne (List.eq_nil_of_length_eq_zero hlen)
  have hp0 : (0 : ℚ) ≤ idealPeriod rate := by
    unfold idealPeriod
    positivity
  have hzip : List.Pairwise (fun a b : ℚ × ℚ => a.1 < b.1) (toQPairs times_ms values) := by
    have h1 : List.Pairwise (fun a b : ℤ => (a : ℚ) < (b : ℚ)) times_ms :=
      hsorted.imp (fun h => by exact_mod_cast h)
    rw [← List.map_fst_zip times_ms values (le_of_eq hlen)] at h1
    have h2 := List.pairwise_map.mp h1
    unfold toQPairs
    rw [List.pairwise_map]
    exact h2.imp (fun h => h)
  have hts : List.Pairwise (· ≤ ·)
      ((List.range (sampleCount rate ((times_ms.getLastD 0 : ℤ) : ℚ))).map
        (fun i : ℕ => (i : ℚ) * idealPeriod rate)) := by
    rw [List.pairwise_map]
    refine (List.pairwise_lt_range _).imp ?_
    intro a b h
    exact mul_le_mul_of_nonneg_right (by exact_mod_cast Nat.le_of_lt h) hp0
  unfold convert_axis_events
  rw [if_neg (by simp [hne, hnev]), if_neg (by simp [hlen])]
  dsimp only []
  rw [ffStep_eq_map _ _ hzip hts, List.map_map, List.map_map, List.map_map]
  have hcomp1 : ratTrunc ∘ (fun i : ℕ => (i : ℚ) * idealPeriod rate) =
      fun i : ℕ => ⌊(i : ℚ) * idealPeriod rate⌋ := by
    funext i
    show ratTrunc ((i : ℚ) * idealPeriod rate) = _
    unfold ratTrunc
    rw [if_pos (mul_nonneg (by positivity) hp0)]
  rw [hcomp1]
  rfl

theorem convert_axis_forward_fill_amended_witness :
    ((0 : ℕ) < 10 ∧ ([0, 150] : List ℤ) ≠ [] ∧
      ([0, 150] : List ℤ).length = ([2, 9] : List ℤ).length ∧
      List.Pairwise (· < ·) ([0, 150] : List ℤ)) ∧
    convert_axis_events 10 [0, 150] [2, 9] .forward_fill =
      some
        ((List.range (sampleCount 10 ((([0, 150] : List ℤ).getLastD 0 : ℤ) : ℚ))).map
            (fun i : ℕ => ⌊(i : ℚ) * idealPeriod 10⌋),
          (List.range (sampleCount 10 ((([0, 150] : List ℤ).getLastD 0 : ℤ) : ℚ))).map
            (fun i : ℕ =>
              roundHalfEven (lvcfValue (toQPairs [0, 150] [2, 9]) ((i : ℚ) * idealPeriod 10)))) :=
  ⟨⟨by decide, by decide, by decide, by decide⟩,
    convert_axis_forward_fill_amended 10 [0, 150] [2, 9] (by decide) (by decide) (by decide)
      (by decide)⟩

/-- C7 counterexample: a pair of traces whose aligned common timeline has 2
samples (fewer than 10) for which the pairwise analysis reports a non-empty
opposite-movement list, contradicting the claim that all event lists are
empty below 10 samples. -/
theorem opposite_movements_counterexample :
    detectOppositeMovements [0, 100] [0, 10] [0, -10] = [0] ∧
    ([0] : List ℤ) ≠ [] ∧ ([(0 : ℝ), 100].length < 10) := by
  have hstd1 : npStd [(10 : ℝ)] = 0 := by
    unfold npStd npVar npMean
    norm_num
  have hstd2 : npStd [(-10 : ℝ)] = 0 := by
    unfold npStd npVar npMean
    norm_num
  refine ⟨?_, by simp, by norm_num⟩
  norm_num [detectOppositeMovements, npDiff, hstd1, hstd2, List.filter, truncR,
    show (List.range 1) = [0] from rfl]

/-- C7 (amended): for every pair of traces whose aligned common timeline has
fewer than 10 samples, the pairwise analysis returns a zero lead-lag
(optimal lag 0, maximal cross-correlation 0.0) and empty convergence and
divergence event lists; the simultaneous-peak and opposite-movement
detectors carry no such ten-sample guard, so those two lists may be
non-empty. -/
theorem pairwise_few_samples_guards (values1 values2 times_ms distances : List ℝ)
    (convT divT : ℝ) (h1 : values1.length < 10) (h2 : distances.length < 10) :
    computeLeadLag values1 values2 times_ms = (0, 0) ∧
    detectConvergenceDivergence times_ms distances convT divT = ([], []) := by
  constructor
  · unfold computeLeadLag
    rw [if_pos h1]
  · unfold detectConvergenceDivergence
    rw [if_pos h2]

theorem pairwise_few_samples_guards_witness :
    (([(0 : ℝ), 1, 2, 3, 4].length < 10) ∧ ([(1 : ℝ), 1, 2].length < 10)) ∧
    (computeLeadLag [0, 1, 2, 3, 4] [4, 3, 2, 1, 0] [0, 100, 200, 300, 400] = (0, 0) ∧
      detectConvergenceDivergence [0, 100, 200] [1, 1, 2] 0.3 0.7 = ([], [])) :=
  ⟨⟨by norm_num, by norm_num⟩,
    pairwise_few_samples_guards [0, 1, 2, 3, 4] [4, 3, 2, 1, 0] [0, 100, 200, 300, 400]
      [1, 1, 2] 0.3 0.7 (by norm_num) (by norm_num)⟩

end HSparc
